import Mathlib

/-!
Verification of the position-ledger, risk-management, rate-limiting and
simulated-account logic of a crypto trading bot.

The embedding models the simulation path of the program: prices, amounts and
balances are exact rationals, the simulated account is threaded explicitly, and
the risk-management close loops are modelled with explicit index lists,
returning `none` when the original code would raise an IndexError.
-/

/-- One open lot of the position ledger: `(amount, entry_price)` as stored in
`bot.position_entry_prices`. -/
structure Lot where
  amount : ℚ
  entry_price : ℚ
deriving DecidableEq

/-- One record of `SimulationTracker.transaction_history` (timestamp and
currency labels omitted; they are opaque to every claim). -/
structure Transaction where
  action : String
  amount : ℚ
  price : ℚ
  value : ℚ
  quote_balance_after : ℚ
  base_balance_after : ℚ
deriving DecidableEq

/-- One record of `SimulationTracker.balance_history`. -/
structure BalanceEntry where
  quote_balance : ℚ
  base_balance : ℚ
  price : ℚ
  total_value_in_quote : ℚ
deriving DecidableEq

/-- The mutable state of `SimulationTracker` (`trading/simulation.py`). -/
structure SimTracker where
  quote_balance : ℚ
  base_balance : ℚ
  transaction_history : List Transaction
  balance_history : List BalanceEntry
deriving DecidableEq

/-- The position-ledger part of the bot state together with the configuration
fields read by the embedded functions. -/
structure CryptoTradingBot where
  current_position_size : ℚ
  position_entry_prices : List Lot
  base_position_size : ℚ
  max_position_size : ℚ
  max_position_increments : ℚ
  min_signal_strength_for_increment : ℚ
  take_profit_percentage : ℚ
  stop_loss_percentage : ℚ
deriving DecidableEq

/-- Sum of the amounts of a list of lots. -/
def sumAmounts (lots : List Lot) : ℚ :=
  (lots.map Lot.amount).sum

/-- Python's `str.lower()` on the action strings (structural recursion over the
character list, so that concrete instances compute). -/
def pyLower (s : String) : String := ⟨s.data.map Char.toLower⟩

/-- Shared tail of `SimulationTracker.execute_trade`: record the transaction
and the balance snapshot after a successful trade. -/
def recordTrade (t : SimTracker) (act : String) (amount price : ℚ) :
    Bool × SimTracker :=
  (true,
   { t with
     transaction_history := t.transaction_history ++
       [⟨act, amount, price, amount * price, t.quote_balance, t.base_balance⟩],
     balance_history := t.balance_history ++
       [⟨t.quote_balance, t.base_balance, price,
         t.quote_balance + t.base_balance * price⟩] })

/-- `SimulationTracker.execute_trade` (`trading/simulation.py`, lines 47-123):
a buy costs `amount * price * 1.001` and is rejected when the cost exceeds the
quote balance; a sell of more than the base balance is rejected; a rejected or
unknown action leaves the tracker unchanged. -/
def execute_trade (t : SimTracker) (action : String) (amount price : ℚ) :
    Bool × SimTracker :=
  let act := pyLower action
  if act = "buy" then
    let cost := amount * price * (1.001 : ℚ)
    if cost > t.quote_balance then (false, t)
    else
      recordTrade
        { t with quote_balance := t.quote_balance - cost,
                 base_balance := t.base_balance + amount } act amount price
  else if act = "sell" then
    if amount > t.base_balance then (false, t)
    else
      recordTrade
        { t with base_balance := t.base_balance - amount,
                 quote_balance := t.quote_balance + amount * price * (0.999 : ℚ) }
        act amount price
  else (false, t)

/-- The loop body of `update_position_entry_prices`
(`trading/execution/position_management.py`, lines 21-36): walk the lots oldest
first; while something remains to sell, fully consume lots it covers and
partially consume the first lot it does not, keeping everything afterwards. -/
def update_go (remaining : ℚ) : List Lot → List Lot
  | [] => []
  | l :: ls =>
    if remaining ≤ 0 then l :: update_go remaining ls
    else if remaining ≥ l.amount then update_go (remaining - l.amount) ls
    else ⟨l.amount - remaining, l.entry_price⟩ :: update_go 0 ls

/-- `update_position_entry_prices(bot, sell_amount)`
(`trading/execution/position_management.py`, lines 13-39): replaces the bot's
lot list by the FIFO remainder.  The Python function falls off its end, i.e. it
returns `None`; that return value is the second component, of an `Option` type
so that the claimed list-of-consumed-pairs return value is expressible. -/
def update_position_entry_prices (b : CryptoTradingBot) (sell_amount : ℚ) :
    CryptoTradingBot × Option (List Lot) :=
  ({ b with position_entry_prices := update_go sell_amount b.position_entry_prices },
   none)

/-- Modelled from the spec: the Position Ledger `sell(amount)` operation of
spec section 4.2, which "consume[s] oldest lots first" and "returns the set of
consumed `(amount, entry_price)` pairs".  First component: remaining lots;
second component: consumed pairs.  (No function under `src/` returns the
consumed pairs; this definition exists to compare the code against the spec's
words.) -/
def sellSpec (s : ℚ) : List Lot → List Lot × List Lot
  | [] => ([], [])
  | l :: ls =>
    if s ≤ 0 then (l :: ls, [])
    else if s ≥ l.amount then
      let r := sellSpec (s - l.amount) ls
      (r.1, ⟨l.amount, l.entry_price⟩ :: r.2)
    else (⟨l.amount - s, l.entry_price⟩ :: ls, [⟨s, l.entry_price⟩])

/-- `calculate_position_increment`
(`trading/execution/signal_processing.py`, lines 104-131). -/
def calculate_position_increment (b : CryptoTradingBot) (signal_strength : ℚ) : ℚ :=
  if signal_strength < b.min_signal_strength_for_increment then 0
  else
    let increment_factor := 1 + signal_strength
    let current_increments := b.current_position_size / b.base_position_size
    let remaining_increments := b.max_position_increments - current_increments
    if remaining_increments < 1 then increment_factor * remaining_increments
    else increment_factor

/-- `calculate_sell_amount`
(`trading/execution/signal_processing.py`, lines 133-162). -/
def calculate_sell_amount (b : CryptoTradingBot) (signal_strength : ℚ) : ℚ :=
  if signal_strength > 0.8 then b.current_position_size
  else
    let sell_percentage := 0.25 + signal_strength * 0.5
    let sell_amount := b.current_position_size * sell_percentage
    let sell_amount :=
      if sell_amount < b.base_position_size ∧
         b.current_position_size ≥ b.base_position_size then b.base_position_size
      else if sell_amount < b.current_position_size then b.current_position_size
      else sell_amount
    min sell_amount b.current_position_size

/-- The per-lot take-profit/stop-loss test of the risk-management loops
(`position_management.py`, lines 60-77, and `trade_execution.py`,
lines 161-178): a lot with non-positive entry price is skipped; otherwise it
triggers when its price-change percentage reaches the take-profit threshold or
falls to minus the stop-loss threshold. -/
def trigLot (tp sl price : ℚ) (l : Lot) : Bool :=
  if l.entry_price ≤ 0 then false
  else
    let price_change_pct := (price - l.entry_price) / l.entry_price * 100
    if price_change_pct ≥ tp then true
    else if price_change_pct ≤ -sl then true
    else false

/-- The `positions_to_close` indices collected by the take-profit/stop-loss
loop, starting from index `k`: the enumerated positions whose lot triggers. -/
def trigIdxFrom (tp sl price : ℚ) (k : ℕ) : List Lot → List ℕ
  | [] => []
  | l :: ls =>
    (if trigLot tp sl price l then [k] else []) ++ trigIdxFrom tp sl price (k + 1) ls

/-- Insertion step of the embedding of Python's `sorted(..., reverse=True)`. -/
def insertDesc (a : ℕ) : List ℕ → List ℕ
  | [] => [a]
  | b :: l => if b ≤ a then a :: b :: l else b :: insertDesc a l

/-- Python's `sorted(positions_to_close, reverse=True)`.  (On natural-number
keys every sort agrees with Python's stable sort, so insertion sort is an
exact embedding.) -/
def sortDesc : List ℕ → List ℕ
  | [] => []
  | a :: l => insertDesc a (sortDesc l)

/-- The closing loop shared by both risk-management handlers
(`position_management.py`, lines 79-101, `trade_execution.py`, lines 180-203),
simulation path: for each queued index, read the lot at that index
(`none` embeds the IndexError raised when the index is out of range after
earlier pops), sell it through the tracker, and on success reduce the position
size and pop the lot. -/
def closeLoop : List ℕ → ℚ → CryptoTradingBot → SimTracker →
    Option (CryptoTradingBot × SimTracker)
  | [], _, b, t => some (b, t)
  | i :: rest, price, b, t =>
    match b.position_entry_prices.get? i with
    | none => none
    | some lot =>
      let r := execute_trade t "sell" lot.amount price
      if r.1 then
        closeLoop rest price
          { b with current_position_size := b.current_position_size - lot.amount,
                   position_entry_prices := b.position_entry_prices.eraseIdx i }
          r.2
      else closeLoop rest price b r.2

/-- `handle_risk_management(bot, current_price)`
(`trading/execution/position_management.py`, lines 41-103), simulation path.
Returns the `action_taken` flag and the updated state, or `none` on an
IndexError. -/
def handle_risk_management (b : CryptoTradingBot) (t : SimTracker) (price : ℚ) :
    Option (Bool × CryptoTradingBot × SimTracker) :=
  if b.current_position_size ≤ 0 ∨ b.position_entry_prices = [] then some (false, b, t)
  else
    let idxs := trigIdxFrom b.take_profit_percentage b.stop_loss_percentage price 0
      b.position_entry_prices
    (closeLoop (sortDesc idxs) price b t).map (fun r => (!idxs.isEmpty, r.1, r.2))

/-- The micro-trend reversal test of `handle_high_frequency_risk_management`
(`trading/execution/trade_execution.py`, lines 147-149): at least three
observed closes and the last three strictly decreasing. -/
def lastThreeStrictlyDecreasing (closes : List ℚ) : Bool :=
  match closes.reverse with
  | c1 :: c2 :: c3 :: _ => decide (c1 < c2) && decide (c2 < c3)
  | _ => false

/-- `handle_high_frequency_risk_management(bot, current_price, df)`
(`trading/execution/trade_execution.py`, lines 128-204), simulation path, with
the close column of `df` passed as `closes`: the micro-trend reversal queues
index 0, the tighter 0.5%/0.3% take-profit/stop-loss loop queues the triggered
indices, and the queued indices are closed in descending order. -/
def handle_high_frequency_risk_management (b : CryptoTradingBot) (t : SimTracker)
    (price : ℚ) (closes : List ℚ) : Option (Bool × CryptoTradingBot × SimTracker) :=
  if b.current_position_size ≤ 0 ∨ b.position_entry_prices = [] then some (false, b, t)
  else
    let microIdxs : List ℕ :=
      if lastThreeStrictlyDecreasing closes = true ∧ b.position_entry_prices ≠ []
      then [0] else []
    let idxs := microIdxs ++
      trigIdxFrom (0.5 : ℚ) (0.3 : ℚ) price 0 b.position_entry_prices
    (closeLoop (sortDesc idxs) price b t).map (fun r => (!idxs.isEmpty, r.1, r.2))

/-- The buy-signal branch of `process_signals`
(`trading/execution/trade_execution.py`, lines 46-86), simulation path: cap
check, increment sizing with the hard-coded high-frequency signal strength 0.8,
minimum-size filter, then the simulated trade. -/
def buy_branch (b : CryptoTradingBot) (t : SimTracker) (current_price : ℚ) :
    Bool × CryptoTradingBot × SimTracker :=
  let increment_size := calculate_position_increment b (0.8 : ℚ)
  if b.current_position_size < b.max_position_size * b.base_position_size then
    let buy_amount := min (b.base_position_size * increment_size)
      (b.max_position_size * b.base_position_size - b.current_position_size)
    if buy_amount ≥ b.base_position_size * (0.1 : ℚ) then
      let r := execute_trade t "buy" buy_amount current_price
      if r.1 then
        (true,
         { b with current_position_size := b.current_position_size + buy_amount,
                  position_entry_prices := b.position_entry_prices ++
                    [⟨buy_amount, current_price⟩] },
         r.2)
      else (true, b, r.2)
    else (true, b, t)
  else (true, b, t)

/-- The sell-signal branch of `process_signals`
(`trading/execution/trade_execution.py`, lines 89-120), simulation path. -/
def sell_branch (b : CryptoTradingBot) (t : SimTracker) (current_price : ℚ) :
    Bool × CryptoTradingBot × SimTracker :=
  if b.current_position_size > 0 then
    let sell_amount := min b.current_position_size b.base_position_size
    let r := execute_trade t "sell" sell_amount current_price
    if r.1 then
      (true,
       { b with current_position_size := b.current_position_size - sell_amount,
                position_entry_prices := update_go sell_amount b.position_entry_prices },
       r.2)
    else (true, b, r.2)
  else (true, b, t)

/-- `process_signals(bot, df, current_price)`
(`trading/execution/trade_execution.py`, lines 17-126), simulation path, with
the signal extracted from `df` passed as `position_change` and the close column
as `closes`: risk management first (when a position is held), early return on a
risk action, then the buy or sell branch. -/
def process_signals (b : CryptoTradingBot) (t : SimTracker) (position_change : ℤ)
    (current_price : ℚ) (closes : List ℚ) :
    Option (Bool × CryptoTradingBot × SimTracker) :=
  match (if b.current_position_size > 0 then
          handle_high_frequency_risk_management b t current_price closes
         else some (false, b, t)) with
  | none => none
  | some (taken, b1, t1) =>
    if taken then some (true, b1, t1)
    else if position_change = 1 then some (buy_branch b1 t1 current_price)
    else if position_change = -1 then some (sell_branch b1 t1 current_price)
    else some (false, b1, t1)

/-- One observable operation on a bot's position state: a signal-processing
tick (buy, sell or no signal) or a plain risk-management tick. -/
inductive TradeOp where
  | signal : ℤ → ℚ → List ℚ → TradeOp
  | riskTick : ℚ → TradeOp

/-- Apply one operation to a bot/tracker pair. -/
def applyOp : TradeOp → CryptoTradingBot × SimTracker →
    Option (CryptoTradingBot × SimTracker)
  | TradeOp.signal pc price closes, s =>
    (process_signals s.1 s.2 pc price closes).map Prod.snd
  | TradeOp.riskTick price, s =>
    (handle_risk_management s.1 s.2 price).map Prod.snd

/-- Run a sequence of operations; `none` as soon as one of them raises. -/
def runOps : List TradeOp → CryptoTradingBot × SimTracker →
    Option (CryptoTradingBot × SimTracker)
  | [], s => some s
  | op :: ops, s =>
    match applyOp op s with
    | none => none
    | some s' => runOps ops s'

/-- Modelled from the spec: the Trade Governor state of spec section 4.4
(`last_trade_time`, `trades_in_window`).  The governor itself
(`can_trade` / `minute_trade_limit`) is not under `src/`; only its
configuration (`bot.minute_trade_limit = args.trade_limit`, `main.py` line
163) is. -/
structure TradeGovernor where
  last_trade_time : Option ℚ
  trades_in_window : ℕ
deriving DecidableEq

/-- Modelled from the spec: `can_trade()` of spec section 4.4.  "If no prior
trade recorded, allow and start a window.  If more than 60 seconds have
elapsed since the window started, reset `trades_in_window` to 0.  If
`trades_in_window < limit`, increment the counter, update `last_trade_time`,
and allow; otherwise deny." -/
def can_trade (limit : ℕ) (g : TradeGovernor) (now : ℚ) : Bool × TradeGovernor :=
  match g.last_trade_time with
  | none => (true, ⟨some now, 1⟩)
  | some t0 =>
    let k := if now - t0 > 60 then 0 else g.trades_in_window
    if k < limit then (true, ⟨some now, k + 1⟩)
    else (false, ⟨some t0, k⟩)

/-- Feed a list of entry-signal times through the governor, counting how many
entries it allows. -/
def runGov (limit : ℕ) (g : TradeGovernor) : List ℚ → ℕ × TradeGovernor
  | [] => (0, g)
  | now :: ts =>
    let r := can_trade limit g now
    let rec' := runGov limit r.2 ts
    (rec'.1 + (if r.1 then 1 else 0), rec'.2)

/-- Footprint of one embedded operation on the bot/tracker pair: the sizing
configuration is untouched, the lot-sum invariant is maintained, and — when
the configuration is sane and the lots nonnegative — nonnegativity and the
exposure cap are maintained. -/
def StepOk (s s' : CryptoTradingBot × SimTracker) : Prop :=
  s'.1.base_position_size = s.1.base_position_size ∧
  s'.1.max_position_size = s.1.max_position_size ∧
  (0 < s.1.base_position_size →
    ((sumAmounts s.1.position_entry_prices = s.1.current_position_size →
       sumAmounts s'.1.position_entry_prices = s'.1.current_position_size) ∧
     ((∀ l ∈ s.1.position_entry_prices, 0 ≤ l.amount) →
       ((∀ l ∈ s'.1.position_entry_prices, 0 ≤ l.amount) ∧
        (s.1.current_position_size ≤
            s.1.max_position_size * s.1.base_position_size →
          s'.1.current_position_size ≤
            s.1.max_position_size * s.1.base_position_size)))))

/-! ### Basic lemmas about the ledger helpers -/

theorem sumAmounts_nil : sumAmounts [] = 0 := rfl

theorem sumAmounts_cons (l : Lot) (ls : List Lot) :
    sumAmounts (l :: ls) = l.amount + sumAmounts ls := by
  simp [sumAmounts]

theorem sumAmounts_append (a b : List Lot) :
    sumAmounts (a ++ b) = sumAmounts a + sumAmounts b := by
  simp [sumAmounts]

theorem pyLower_buy : pyLower "buy" = "buy" := by decide

theorem pyLower_sell : pyLower "sell" = "sell" := by decide

theorem update_go_nonpos (s : ℚ) (lots : List Lot) (h : s ≤ 0) :
    update_go s lots = lots := by
  induction lots with
  | nil => rfl
  | cons l ls ih => simp [update_go, h, ih]

theorem sum_update_go (s : ℚ) (lots : List Lot) (h0 : 0 ≤ s)
    (hs : s ≤ sumAmounts lots) :
    sumAmounts (update_go s lots) = sumAmounts lots - s := by
  induction lots generalizing s with
  | nil =>
    have : s = 0 := le_antisymm (by simpa [sumAmounts] using hs) h0
    simp [update_go, this]
  | cons l ls ih =>
    by_cases hz : s ≤ 0
    · have hs0 : s = 0 := le_antisymm hz h0
      subst hs0
      simp [update_go, update_go_nonpos]
    · rw [sumAmounts_cons] at hs
      by_cases hge : s ≥ l.amount
      · have h1 : 0 ≤ s - l.amount := sub_nonneg.mpr hge
        have h2 : s - l.amount ≤ sumAmounts ls := by linarith
        simp only [update_go, if_neg hz, if_pos hge]
        rw [ih (s - l.amount) h1 h2, sumAmounts_cons]
        ring
      · simp only [update_go, if_neg hz, if_neg hge]
        rw [sumAmounts_cons, update_go_nonpos 0 ls le_rfl, sumAmounts_cons]
        ring

theorem nonneg_update_go (s : ℚ) (lots : List Lot)
    (h : ∀ l ∈ lots, 0 ≤ l.amount) :
    ∀ l ∈ update_go s lots, 0 ≤ l.amount := by
  induction lots generalizing s with
  | nil => simp [update_go]
  | cons l ls ih =>
    intro l' hl'
    by_cases hz : s ≤ 0
    · rw [update_go_nonpos s (l :: ls) hz] at hl'
      exact h l' hl'
    · by_cases hge : s ≥ l.amount
      · simp only [update_go, if_neg hz, if_pos hge] at hl'
        exact ih (s - l.amount) (fun x hx => h x (List.mem_cons_of_mem l hx)) l' hl'
      · simp only [update_go, if_neg hz, if_neg hge,
          update_go_nonpos 0 ls le_rfl, List.mem_cons] at hl'
        rcases hl' with hl' | hl'
        · subst hl'
          simpa using sub_nonneg.mpr (le_of_lt (not_le.mp hge))
        · exact h l' (List.mem_cons_of_mem l hl')

theorem update_go_eq_sellSpec (s : ℚ) (lots : List Lot) :
    update_go s lots = (sellSpec s lots).1 := by
  induction lots generalizing s with
  | nil => rfl
  | cons l ls ih =>
    by_cases hz : s ≤ 0
    · simp [update_go, sellSpec, hz, update_go_nonpos s ls hz]
    · by_cases hge : s ≥ l.amount
      · simp [update_go, sellSpec, hz, hge, ih]
      · simp [update_go, sellSpec, hz, hge, update_go_nonpos 0 ls le_rfl]

theorem sum_eraseIdx (lots : List Lot) (i : ℕ) (lot : Lot)
    (h : lots.get? i = some lot) :
    sumAmounts (lots.eraseIdx i) = sumAmounts lots - lot.amount := by
  induction lots generalizing i with
  | nil => simp at h
  | cons l ls ih =>
    cases i with
    | zero =>
      simp only [List.get?] at h
      injection h with h
      subst h
      simp [List.eraseIdx, sumAmounts_cons]
    | succ j =>
      simp only [List.get?] at h
      rw [List.eraseIdx, sumAmounts_cons, sumAmounts_cons, ih j h]
      ring

theorem get?_at_length {α : Type} (l : List α) (x : α) (l' : List α) :
    (l ++ x :: l').get? l.length = some x := by
  induction l with
  | nil => rfl
  | cons a as ih => simpa using ih

theorem eraseIdx_at_length {α : Type} (l : List α) (x : α) (l' : List α) :
    (l ++ x :: l').eraseIdx l.length = l ++ l' := by
  induction l with
  | nil => rfl
  | cons a as ih => simpa [List.eraseIdx] using ih

/-! ### C4, C5, C6, C7, C10 -/

/-- C4: `calculate_sell_amount` is claimed to return `(0.25 + 0.5*strength)`
of the current position for moderate signals; on a bot holding `0.01` with
`base_position_size = 0.001` and strength `0.5` the code instead returns the
full `0.01` (the claimed fraction would be `0.005`): the
`sell_amount < current_position_size` branch overrides the fractional
amount. -/
theorem calculate_sell_amount_full_liquidation_on_moderate_signal :
    calculate_sell_amount ⟨0.01, [⟨0.01, 100⟩], 0.001, 15, 15, 0.5, 0.5, 0.3⟩
      (0.5 : ℚ) = 0.01 ∧
    (0.01 : ℚ) * (0.25 + 0.5 * 0.5) = 0.005 ∧
    (0.01 : ℚ) ≠ 0.005 := by
  refine ⟨?_, by norm_num, by norm_num⟩
  norm_num [calculate_sell_amount]

/-- C5: a FIFO sell of `0 ≤ s` smaller than the oldest lot's amount decreases
only the oldest lot's amount, by exactly `s`, and leaves every newer lot
untouched. -/
theorem fifo_partial_sell_frame (l : Lot) (rest : List Lot) (s : ℚ)
    (h0 : 0 ≤ s) (hlt : s < l.amount) :
    update_go s (l :: rest) = ⟨l.amount - s, l.entry_price⟩ :: rest := by
  obtain ⟨a, p⟩ := l
  simp only at hlt
  by_cases hz : s ≤ 0
  · have hs0 : s = 0 := le_antisymm hz h0
    subst hs0
    simp [update_go, update_go_nonpos]
  · have hge : ¬ s ≥ a := not_le.mpr hlt
    simp [update_go, hz, hge, update_go_nonpos 0 rest le_rfl]

/-- Witness for C5 at a concrete input. -/
theorem fifo_partial_sell_frame_witness :
    (0 : ℚ) ≤ 1 ∧ (1 : ℚ) < 3 ∧
    update_go 1 [⟨3, 10⟩, ⟨2, 20⟩] = [⟨2, 10⟩, ⟨2, 20⟩] := by
  refine ⟨by norm_num, by norm_num, ?_⟩
  rw [fifo_partial_sell_frame ⟨3, 10⟩ [⟨2, 20⟩] 1 (by norm_num) (by norm_num)]
  norm_num

/-- C6 counterexample: `update_position_entry_prices` is claimed to return the
consumed `(amount, entry_price)` pairs; on a bot holding one lot `(2, 5)` and a
sell of `1` the consumed pairs are `[(1, 5)]`, but the Python function returns
`None`. -/
theorem update_position_entry_prices_returns_none :
    (update_position_entry_prices ⟨2, [⟨2, 5⟩], 0.001, 15, 15, 0.5, 0.5, 0.3⟩ 1).2
      = none ∧
    (sellSpec 1 [⟨2, 5⟩]).2 = [⟨1, 5⟩] ∧
    (update_position_entry_prices ⟨2, [⟨2, 5⟩], 0.001, 15, 15, 0.5, 0.5, 0.3⟩ 1).2
      ≠ some (sellSpec 1 [⟨2, 5⟩]).2 := by
  refine ⟨rfl, ?_, by simp [update_position_entry_prices]⟩
  norm_num [sellSpec]

/-- C6 amended: the FIFO sell update removes the consumed pairs from the lot
list, oldest first, exactly as the spec's `sell` describes, but it returns
`None`; the consumed pairs are not reported to the caller. -/
theorem update_position_entry_prices_fifo_no_return (b : CryptoTradingBot) (s : ℚ) :
    (update_position_entry_prices b s).2 = none ∧
    (update_position_entry_prices b s).1.position_entry_prices =
      (sellSpec s b.position_entry_prices).1 :=
  ⟨rfl, by simp [update_position_entry_prices, update_go_eq_sellSpec]⟩

/-- C7: a simulated buy costs `amount * price * 1.001` and is rejected, with
the tracker fully unchanged, when the cost exceeds the quote balance; a
simulated sell of more than the base balance is likewise rejected with no
state change; with a quote balance of 100, a buy of 0.01 at 50000 costs 500.5
and is rejected. -/
theorem execute_trade_insufficient_balance :
    (∀ (t : SimTracker) (amount price : ℚ),
       amount * price * (1.001 : ℚ) > t.quote_balance →
       execute_trade t "buy" amount price = (false, t)) ∧
    (∀ (t : SimTracker) (amount price : ℚ),
       amount > t.base_balance →
       execute_trade t "sell" amount price = (false, t)) ∧
    ((0.01 : ℚ) * 50000 * (1.001 : ℚ) = 500.5) ∧
    (∀ t : SimTracker, t.quote_balance = 100 →
       execute_trade t "buy" (0.01 : ℚ) 50000 = (false, t)) := by
  have hbuy : ∀ (t : SimTracker) (amount price : ℚ),
      amount * price * (1.001 : ℚ) > t.quote_balance →
      execute_trade t "buy" amount price = (false, t) := by
    intro t amount price h
    simp [execute_trade, pyLower_buy, h]
  refine ⟨hbuy, ?_, by norm_num, ?_⟩
  · intro t amount price h
    simp [execute_trade, pyLower_sell, h]
  · intro t h
    exact hbuy t 0.01 50000 (by rw [h]; norm_num)

/-- Witness for C7 at a concrete tracker. -/
theorem execute_trade_insufficient_balance_witness :
    ((0.01 : ℚ) * 50000 * (1.001 : ℚ) > (100 : ℚ)) ∧
    execute_trade ⟨100, 0, [], []⟩ "buy" (0.01 : ℚ) 50000 = (false, ⟨100, 0, [], []⟩) ∧
    ((1 : ℚ) > (0 : ℚ)) ∧
    execute_trade ⟨100, 0, [], []⟩ "sell" 1 50000 = (false, ⟨100, 0, [], []⟩) :=
  ⟨by norm_num,
   execute_trade_insufficient_balance.2.2.2 ⟨100, 0, [], []⟩ rfl,
   by norm_num,
   execute_trade_insufficient_balance.2.1 ⟨100, 0, [], []⟩ 1 50000 (by norm_num)⟩

/-- C10: a successful simulated trade appends exactly one transaction record,
whose balances-after fields equal the tracker's balances after the trade, and
exactly one balance-history entry whose total value is
`quote_balance + base_balance * price`; a failed trade leaves the tracker
unchanged. -/
theorem execute_trade_appends_exactly_one_record
    (t : SimTracker) (action : String) (amount price : ℚ) :
    ((execute_trade t action amount price).1 = true →
      (execute_trade t action amount price).2.transaction_history =
        t.transaction_history ++
          [⟨pyLower action, amount, price, amount * price,
            (execute_trade t action amount price).2.quote_balance,
            (execute_trade t action amount price).2.base_balance⟩] ∧
      (execute_trade t action amount price).2.balance_history =
        t.balance_history ++
          [⟨(execute_trade t action amount price).2.quote_balance,
            (execute_trade t action amount price).2.base_balance, price,
            (execute_trade t action amount price).2.quote_balance +
              (execute_trade t action amount price).2.base_balance * price⟩]) ∧
    ((execute_trade t action amount price).1 = false →
      (execute_trade t action amount price).2 = t) := by
  by_cases h1 : pyLower action = "buy"
  · by_cases h2 : amount * price * (1.001 : ℚ) > t.quote_balance
    · simp [execute_trade, h1, h2]
    · simp [execute_trade, recordTrade, h1, h2]
  · by_cases h2 : pyLower action = "sell"
    · by_cases h3 : amount > t.base_balance
      · simp [execute_trade, h1, h2, h3]
      · simp [execute_trade, recordTrade, h1, h2, h3]
    · simp [execute_trade, h1, h2]

/-- Witness for C10: a successful concrete buy. -/
theorem execute_trade_appends_exactly_one_record_witness :
    (execute_trade ⟨100, 0, [], []⟩ "buy" 1 10).1 = true ∧
    (execute_trade ⟨100, 0, [], []⟩ "buy" 1 10).2.transaction_history =
      [] ++ [⟨pyLower "buy", 1, 10, 1 * 10,
        (execute_trade ⟨100, 0, [], []⟩ "buy" 1 10).2.quote_balance,
        (execute_trade ⟨100, 0, [], []⟩ "buy" 1 10).2.base_balance⟩] ∧
    (execute_trade ⟨100, 0, [], []⟩ "buy" 1 10).2.balance_history =
      [] ++ [⟨(execute_trade ⟨100, 0, [], []⟩ "buy" 1 10).2.quote_balance,
        (execute_trade ⟨100, 0, [], []⟩ "buy" 1 10).2.base_balance, 10,
        (execute_trade ⟨100, 0, [], []⟩ "buy" 1 10).2.quote_balance +
          (execute_trade ⟨100, 0, [], []⟩ "buy" 1 10).2.base_balance * 10⟩] := by
  have h1 : (execute_trade ⟨100, 0, [], []⟩ "buy" 1 10).1 = true := by
    simp [execute_trade, recordTrade, pyLower_buy]
    norm_num
  exact ⟨h1,
    ((execute_trade_appends_exactly_one_record ⟨100, 0, [], []⟩ "buy" 1 10).1 h1).1,
    ((execute_trade_appends_exactly_one_record ⟨100, 0, [], []⟩ "buy" 1 10).1 h1).2⟩

/-! ### Lemmas about the risk-management close loop -/

theorem sumAmounts_nonneg (ls : List Lot) (h : ∀ l ∈ ls, 0 ≤ l.amount) :
    0 ≤ sumAmounts ls := by
  induction ls with
  | nil => simp [sumAmounts]
  | cons l ls ih =>
    rw [sumAmounts_cons]
    have h1 := h l (List.mem_cons_self l ls)
    have h2 := ih (fun x hx => h x (List.mem_cons_of_mem l hx))
    linarith

theorem sumAmounts_filter_le (p : Lot → Bool) (ls : List Lot)
    (h : ∀ l ∈ ls, 0 ≤ l.amount) :
    sumAmounts (ls.filter p) ≤ sumAmounts ls := by
  induction ls with
  | nil => simp
  | cons l ls ih =>
    have h1 := h l (List.mem_cons_self l ls)
    have h2 := ih (fun x hx => h x (List.mem_cons_of_mem l hx))
    by_cases hp : p l
    · simp only [List.filter_cons, hp, if_pos, sumAmounts_cons]
      simpa using h2
    · have hfilter : List.filter p (l :: ls) = List.filter p ls := by
        simp [List.filter_cons, hp]
      rw [hfilter, sumAmounts_cons]
      linarith

theorem trigIdxFrom_append (tp sl price : ℚ) (k : ℕ) (xs : List Lot) (x : Lot) :
    trigIdxFrom tp sl price k (xs ++ [x]) =
      trigIdxFrom tp sl price k xs ++
        (if trigLot tp sl price x then [k + xs.length] else []) := by
  induction xs generalizing k with
  | nil => simp [trigIdxFrom]
  | cons l ls ih =>
    simp only [List.cons_append, trigIdxFrom, List.append_eq, ih (k + 1),
      List.length_cons, List.append_assoc]
    have harith : k + 1 + ls.length = k + (ls.length + 1) := by omega
    rw [harith]

theorem trigIdxFrom_ge (tp sl price : ℚ) (k : ℕ) (lots : List Lot) :
    ∀ i ∈ trigIdxFrom tp sl price k lots, k ≤ i := by
  induction lots generalizing k with
  | nil => simp [trigIdxFrom]
  | cons l ls ih =>
    intro i hi
    simp only [trigIdxFrom, List.mem_append] at hi
    rcases hi with hi | hi
    · by_cases hl : trigLot tp sl price l
      · simp [hl] at hi
        omega
      · simp [hl] at hi
    · have := ih (k + 1) i hi
      omega

theorem insertDesc_all_lt (a : ℕ) (l : List ℕ) (h : ∀ b ∈ l, a < b) :
    insertDesc a l = l ++ [a] := by
  induction l with
  | nil => rfl
  | cons b bs ih =>
    have hb := h b (List.mem_cons_self b bs)
    simp only [insertDesc, if_neg (by omega : ¬ b ≤ a)]
    rw [ih (fun c hc => h c (List.mem_cons_of_mem b hc))]
    simp

theorem sortDesc_trigIdx (tp sl price : ℚ) (k : ℕ) (lots : List Lot) :
    sortDesc (trigIdxFrom tp sl price k lots) =
      (trigIdxFrom tp sl price k lots).reverse := by
  induction lots generalizing k with
  | nil => rfl
  | cons l ls ih =>
    by_cases hl : trigLot tp sl price l
    · simp only [trigIdxFrom, hl, if_pos, List.singleton_append, sortDesc, ih (k + 1)]
      rw [insertDesc_all_lt k _ (fun b hb => by
        have := trigIdxFrom_ge tp sl price (k + 1) ls b (List.mem_reverse.mp hb)
        omega)]
      simp
    · simp only [trigIdxFrom, hl]
      simpa using ih (k + 1)

theorem closeLoop_append (i1 i2 : List ℕ) (price : ℚ) (b : CryptoTradingBot)
    (t : SimTracker) :
    closeLoop (i1 ++ i2) price b t =
      (closeLoop i1 price b t).bind (fun r => closeLoop i2 price r.1 r.2) := by
  induction i1 generalizing b t with
  | nil => simp [closeLoop]
  | cons i rest ih =>
    simp only [List.cons_append, closeLoop]
    cases hg : b.position_entry_prices.get? i with
    | none => rfl
    | some lot =>
      by_cases hr : (execute_trade t "sell" lot.amount price).1
      · simp [hr, ih]
      · simp [hr, ih]

theorem execute_sell_success (t : SimTracker) (amount price : ℚ)
    (h : amount ≤ t.base_balance) :
    (execute_trade t "sell" amount price).1 = true ∧
    (execute_trade t "sell" amount price).2.base_balance = t.base_balance - amount := by
  simp [execute_trade, recordTrade, pyLower_sell, not_lt.mpr h]

theorem closeLoop_core (tp sl price : ℚ) (rest : List Lot) :
    ∀ (init post : List Lot) (b : CryptoTradingBot) (t : SimTracker),
      b.position_entry_prices = init ++ rest ++ post →
      (∀ l ∈ rest, 0 ≤ l.amount) →
      sumAmounts rest ≤ t.base_balance →
      ∃ b' t',
        closeLoop ((trigIdxFrom tp sl price init.length rest).reverse) price b t
          = some (b', t') ∧
        b'.position_entry_prices =
          init ++ rest.filter (fun l => !(trigLot tp sl price l)) ++ post ∧
        b'.current_position_size = b.current_position_size -
          sumAmounts (rest.filter (fun l => trigLot tp sl price l)) ∧
        t'.base_balance = t.base_balance -
          sumAmounts (rest.filter (fun l => trigLot tp sl price l)) := by
  induction rest using List.reverseRecOn with
  | nil =>
    intro init post b t hlots hnn hbal
    refine ⟨b, t, by simp [trigIdxFrom, closeLoop], by simpa using hlots,
      by simp [sumAmounts], by simp [sumAmounts]⟩
  | append_singleton xs x ih =>
    intro init post b t hlots hnn hbal
    have hxnn : 0 ≤ x.amount := hnn x (by simp)
    have hxsnn : ∀ l ∈ xs, 0 ≤ l.amount := fun l hl => hnn l (by simp [hl])
    have hsum : sumAmounts (xs ++ [x]) = sumAmounts xs + x.amount := by
      rw [sumAmounts_append]; simp [sumAmounts]
    rw [trigIdxFrom_append]
    by_cases hx : trigLot tp sl price x
    · rw [if_pos hx, List.reverse_append]
      have hsplit : b.position_entry_prices = (init ++ xs) ++ x :: post := by
        rw [hlots]; simp [List.append_assoc]
      have hlen : (init ++ xs).length = init.length + xs.length := by simp
      have hget : b.position_entry_prices.get? (init.length + xs.length) = some x := by
        rw [hsplit, ← hlen]; exact get?_at_length _ _ _
      have hxle : x.amount ≤ t.base_balance := by
        have h0 := sumAmounts_nonneg xs hxsnn
        rw [hsum] at hbal; linarith
      obtain ⟨hok, hbase⟩ := execute_sell_success t x.amount price hxle
      have herase : b.position_entry_prices.eraseIdx (init.length + xs.length) =
          init ++ xs ++ post := by
        rw [hsplit, ← hlen, eraseIdx_at_length, List.append_assoc]
      obtain ⟨b2, t2, hcl, hlots2, hsize2, hbase2⟩ := ih init post
        { b with
          current_position_size := b.current_position_size - x.amount,
          position_entry_prices :=
            b.position_entry_prices.eraseIdx (init.length + xs.length) }
        (execute_trade t "sell" x.amount price).2
        (by simpa using herase) hxsnn
        (by rw [hbase]; rw [hsum] at hbal; linarith)
      refine ⟨b2, t2, ?_, ?_, ?_, ?_⟩
      · simp only [List.reverse_singleton, List.singleton_append, closeLoop, hget,
          hok, if_pos]
        exact hcl
      · rw [hlots2, List.filter_append]
        simp [hx]
      · rw [hsize2]
        simp only at hsize2 ⊢
        rw [List.filter_append]
        simp only [List.filter_singleton, hx, if_pos, sumAmounts_append]
        simp [sumAmounts]
        ring
      · rw [hbase2, hbase, List.filter_append]
        simp only [List.filter_singleton, hx, if_pos, sumAmounts_append]
        simp [sumAmounts]
        ring
    · rw [if_neg hx]
      simp only [List.append_nil]
      obtain ⟨b2, t2, hcl, hlots2, hsize2, hbase2⟩ := ih init (x :: post) b t
        (by rw [hlots]; simp [List.append_assoc]) hxsnn
        (by rw [hsum] at hbal; linarith)
      refine ⟨b2, t2, hcl, ?_, ?_, ?_⟩
      · rw [hlots2, List.filter_append]
        simp [hx, List.append_assoc]
      · rw [hsize2, List.filter_append]
        simp [hx, sumAmounts_append, sumAmounts]
      · rw [hbase2, List.filter_append]
        simp [hx, sumAmounts_append, sumAmounts]

theorem sumAmounts_filter_not (p : Lot → Bool) (ls : List Lot) :
    sumAmounts (ls.filter (fun l => !(p l))) =
      sumAmounts ls - sumAmounts (ls.filter p) := by
  induction ls with
  | nil => simp [sumAmounts]
  | cons l ls ih =>
    by_cases hp : p l
    · have h1 : List.filter p (l :: ls) = l :: List.filter p ls := by
        simp [List.filter_cons, hp]
      have h2 : List.filter (fun x => !(p x)) (l :: ls) =
          List.filter (fun x => !(p x)) ls := by
        simp [List.filter_cons, hp]
      rw [h1, h2, sumAmounts_cons, sumAmounts_cons, ih]
      ring
    · have h1 : List.filter p (l :: ls) = List.filter p ls := by
        simp [List.filter_cons, hp]
      have h2 : List.filter (fun l => !(p l)) (l :: ls) =
          l :: List.filter (fun l => !(p l)) ls := by
        simp [List.filter_cons, hp]
      rw [h1, h2, sumAmounts_cons, sumAmounts_cons, ih]
      ring

theorem trigLot_nonpos_entry (tp sl price : ℚ) (l : Lot)
    (h : l.entry_price ≤ 0) : trigLot tp sl price l = false := by
  simp [trigLot, h]

theorem handle_risk_management_filter (b : CryptoTradingBot) (t : SimTracker)
    (price : ℚ)
    (hpos : 0 < b.current_position_size)
    (hne : b.position_entry_prices ≠ [])
    (hnn : ∀ l ∈ b.position_entry_prices, 0 ≤ l.amount)
    (hbal : sumAmounts b.position_entry_prices ≤ t.base_balance) :
    ∃ b' t',
      handle_risk_management b t price =
        some (!(trigIdxFrom b.take_profit_percentage b.stop_loss_percentage price 0
                 b.position_entry_prices).isEmpty, b', t') ∧
      b'.position_entry_prices = b.position_entry_prices.filter
        (fun l => !(trigLot b.take_profit_percentage b.stop_loss_percentage price l)) ∧
      b'.current_position_size = b.current_position_size - sumAmounts
        (b.position_entry_prices.filter
          (fun l => trigLot b.take_profit_percentage b.stop_loss_percentage price l)) := by
  have hg : ¬(b.current_position_size ≤ 0 ∨ b.position_entry_prices = []) := by
    push_neg
    exact ⟨hpos, hne⟩
  obtain ⟨b1, t1, hcl, hlots1, hsize1, hbase1⟩ :=
    closeLoop_core b.take_profit_percentage b.stop_loss_percentage price
      b.position_entry_prices [] [] b t (by simp) hnn hbal
  refine ⟨b1, t1, ?_, by simpa using hlots1, hsize1⟩
  simp only [handle_risk_management, if_neg hg]
  rw [show (0 : ℕ) = List.length ([] : List Lot) from rfl, sortDesc_trigIdx, hcl]
  rfl

theorem hf_risk_head_exempt (b : CryptoTradingBot) (t : SimTracker)
    (price : ℚ) (closes : List ℚ) (l0 : Lot) (rest : List Lot)
    (hlots : b.position_entry_prices = l0 :: rest)
    (hdown : lastThreeStrictlyDecreasing closes = true)
    (hhead : trigLot (0.5 : ℚ) (0.3 : ℚ) price l0 = false)
    (hpos : 0 < b.current_position_size)
    (hnn : ∀ l ∈ b.position_entry_prices, 0 ≤ l.amount)
    (hbal : sumAmounts b.position_entry_prices ≤ t.base_balance) :
    ∃ b' t',
      handle_high_frequency_risk_management b t price closes = some (true, b', t') ∧
      b'.position_entry_prices =
        rest.filter (fun l => !(trigLot (0.5 : ℚ) (0.3 : ℚ) price l)) ∧
      b'.current_position_size = b.current_position_size - l0.amount -
        sumAmounts (rest.filter (fun l => trigLot (0.5 : ℚ) (0.3 : ℚ) price l)) := by
  have hne : b.position_entry_prices ≠ [] := by rw [hlots]; simp
  have hg : ¬(b.current_position_size ≤ 0 ∨ b.position_entry_prices = []) := by
    push_neg
    exact ⟨hpos, hne⟩
  have hmicro : lastThreeStrictlyDecreasing closes = true ∧
      b.position_entry_prices ≠ [] := ⟨hdown, hne⟩
  have hl0nn : 0 ≤ l0.amount := hnn l0 (by rw [hlots]; exact List.mem_cons_self l0 rest)
  have hrestnn : ∀ l ∈ rest, 0 ≤ l.amount := fun l hl =>
    hnn l (by rw [hlots]; exact List.mem_cons_of_mem l0 hl)
  have hsumcons : sumAmounts (l0 :: rest) = l0.amount + sumAmounts rest :=
    sumAmounts_cons l0 rest
  have hrestbal : sumAmounts rest ≤ t.base_balance := by
    rw [hlots, hsumcons] at hbal; linarith
  have hidx : trigIdxFrom (0.5 : ℚ) (0.3 : ℚ) price 0 b.position_entry_prices =
      trigIdxFrom (0.5 : ℚ) (0.3 : ℚ) price 1 rest := by
    rw [hlots]
    simp [trigIdxFrom, hhead]
  have hsort : sortDesc ([0] ++ trigIdxFrom (0.5 : ℚ) (0.3 : ℚ) price 1 rest) =
      (trigIdxFrom (0.5 : ℚ) (0.3 : ℚ) price 1 rest).reverse ++ [0] := by
    show insertDesc 0 (sortDesc (trigIdxFrom (0.5 : ℚ) (0.3 : ℚ) price 1 rest)) = _
    rw [sortDesc_trigIdx]
    exact insertDesc_all_lt 0 _ (fun m hm => by
      have := trigIdxFrom_ge (0.5 : ℚ) (0.3 : ℚ) price 1 rest m (List.mem_reverse.mp hm)
      omega)
  obtain ⟨b1, t1, hcl1, hlots1, hsize1, hbase1⟩ :=
    closeLoop_core (0.5 : ℚ) (0.3 : ℚ) price rest [l0] [] b t
      (by rw [hlots]; simp) hrestnn hrestbal
  have hlots1' : b1.position_entry_prices =
      l0 :: rest.filter (fun l => !(trigLot (0.5 : ℚ) (0.3 : ℚ) price l)) := by
    simpa using hlots1
  have hget2 : b1.position_entry_prices.get? 0 = some l0 := by
    rw [hlots1']; rfl
  have hget2' : b1.position_entry_prices[0]? = some l0 := by
    rw [hlots1']; simp
  have hFle := sumAmounts_filter_le
    (fun l => trigLot (0.5 : ℚ) (0.3 : ℚ) price l) rest hrestnn
  have hl0le : l0.amount ≤ t1.base_balance := by
    rw [hbase1]
    rw [hlots, hsumcons] at hbal
    linarith
  obtain ⟨hok2, hbase2⟩ := execute_sell_success t1 l0.amount price hl0le
  refine ⟨{ b1 with
      current_position_size := b1.current_position_size - l0.amount,
      position_entry_prices := b1.position_entry_prices.eraseIdx 0 },
    (execute_trade t1 "sell" l0.amount price).2, ?_, ?_, ?_⟩
  · simp only [handle_high_frequency_risk_management, if_neg hg, if_pos hmicro, hidx,
      hsort, closeLoop_append]
    simp only [List.length_singleton] at hcl1
    rw [hcl1]
    simp only [Option.some_bind]
    simp only [closeLoop, hget2, hget2', hok2, if_pos]
    simp [List.isEmpty]
  · rw [hlots1']
    rfl
  · simp only [hsize1]
    ring

/-! ### C8 and C9 -/

/-- C8: on a risk-management tick a lot is selected for a take-profit or
stop-loss close iff its entry price is strictly positive and its price-change
percentage is at or above the take-profit threshold or at or below minus the
stop-loss threshold; lots with non-positive entry price survive every
take-profit/stop-loss pass, their amounts stay in the ledger sum, and they are
still closed by the micro-trend-reversal trigger. -/
theorem risk_selection_iff_thresholds :
    (∀ (tp sl price : ℚ) (l : Lot),
       trigLot tp sl price l = true ↔
         (0 < l.entry_price ∧
          ((price - l.entry_price) / l.entry_price * 100 ≥ tp ∨
           (price - l.entry_price) / l.entry_price * 100 ≤ -sl))) ∧
    (∀ (b : CryptoTradingBot) (t : SimTracker) (price : ℚ),
       0 < b.current_position_size →
       b.position_entry_prices ≠ [] →
       (∀ l ∈ b.position_entry_prices, 0 ≤ l.amount) →
       sumAmounts b.position_entry_prices ≤ t.base_balance →
       ∃ b' t',
         handle_risk_management b t price =
           some (!(trigIdxFrom b.take_profit_percentage b.stop_loss_percentage
                    price 0 b.position_entry_prices).isEmpty, b', t') ∧
         b'.position_entry_prices = b.position_entry_prices.filter
           (fun l => !(trigLot b.take_profit_percentage b.stop_loss_percentage price l)) ∧
         (∀ l ∈ b.position_entry_prices, l.entry_price ≤ 0 →
            l ∈ b'.position_entry_prices) ∧
         b'.current_position_size = b.current_position_size - sumAmounts
           (b.position_entry_prices.filter
             (fun l => trigLot b.take_profit_percentage b.stop_loss_percentage price l)) ∧
         sumAmounts b'.position_entry_prices = sumAmounts b.position_entry_prices -
           sumAmounts (b.position_entry_prices.filter
             (fun l => trigLot b.take_profit_percentage b.stop_loss_percentage price l))) ∧
    (∀ (b : CryptoTradingBot) (t : SimTracker) (price : ℚ) (closes : List ℚ)
       (l0 : Lot) (rest : List Lot),
       b.position_entry_prices = l0 :: rest →
       l0.entry_price ≤ 0 →
       lastThreeStrictlyDecreasing closes = true →
       0 < b.current_position_size →
       (∀ l ∈ b.position_entry_prices, 0 ≤ l.amount) →
       sumAmounts b.position_entry_prices ≤ t.base_balance →
       ∃ b' t',
         handle_high_frequency_risk_management b t price closes
           = some (true, b', t') ∧
         b'.position_entry_prices =
           rest.filter (fun l => !(trigLot (0.5 : ℚ) (0.3 : ℚ) price l))) := by
  refine ⟨?_, ?_, ?_⟩
  · intro tp sl price l
    by_cases he : l.entry_price ≤ 0
    · simp only [trigLot, if_pos he]
      constructor
      · intro h; exact absurd h (by simp)
      · rintro ⟨h1, _⟩; exact absurd h1 (not_lt.mpr he)
    · have he' : 0 < l.entry_price := not_le.mp he
      simp only [trigLot, if_neg he]
      by_cases h1 : (price - l.entry_price) / l.entry_price * 100 ≥ tp
      · simp [h1, he']
      · by_cases h2 : (price - l.entry_price) / l.entry_price * 100 ≤ -sl
        · simp [h1, h2, he']
        · simp [h1, h2]
  · intro b t price hpos hne hnn hbal
    obtain ⟨b', t', h1, h2, h3⟩ := handle_risk_management_filter b t price hpos hne hnn hbal
    refine ⟨b', t', h1, h2, ?_, h3, ?_⟩
    · intro l hl hle
      rw [h2]
      exact List.mem_filter.mpr ⟨hl, by
        simp [trigLot_nonpos_entry b.take_profit_percentage
          b.stop_loss_percentage price l hle]⟩
    · rw [h2, sumAmounts_filter_not]
  · intro b t price closes l0 rest hlots hl0 hdown hpos hnn hbal
    obtain ⟨b', t', h1, h2, _⟩ := hf_risk_head_exempt b t price closes l0 rest hlots
      hdown (trigLot_nonpos_entry (0.5 : ℚ) (0.3 : ℚ) price l0 hl0) hpos hnn hbal
    exact ⟨b', t', h1, h2⟩

/-- Witness for C8: a concrete take-profit pass keeping the zero-entry lot,
and a concrete micro-trend close of a zero-entry lot. -/
theorem risk_selection_iff_thresholds_witness :
    (∃ b' t',
       handle_risk_management
           ⟨2, [⟨1, 100⟩, ⟨1, 0⟩], 1, 15, 15, 0.5, 0.5, 0.3⟩ ⟨0, 10, [], []⟩ 102 =
         some (!(trigIdxFrom 0.5 0.3 102 0 [⟨1, 100⟩, ⟨1, 0⟩]).isEmpty, b', t') ∧
       b'.position_entry_prices =
         ([⟨1, 100⟩, ⟨1, 0⟩] : List Lot).filter (fun l => !(trigLot 0.5 0.3 102 l)) ∧
       (∀ l ∈ ([⟨1, 100⟩, ⟨1, 0⟩] : List Lot), l.entry_price ≤ 0 →
          l ∈ b'.position_entry_prices) ∧
       b'.current_position_size = 2 - sumAmounts
         (([⟨1, 100⟩, ⟨1, 0⟩] : List Lot).filter (fun l => trigLot 0.5 0.3 102 l)) ∧
       sumAmounts b'.position_entry_prices = sumAmounts [⟨1, 100⟩, ⟨1, 0⟩] -
         sumAmounts (([⟨1, 100⟩, ⟨1, 0⟩] : List Lot).filter
           (fun l => trigLot 0.5 0.3 102 l))) ∧
    (∃ b' t',
       handle_high_frequency_risk_management
           ⟨1, [⟨1, 0⟩], 1, 15, 15, 0.5, 0.5, 0.3⟩ ⟨0, 10, [], []⟩ 102 [3, 2, 1]
         = some (true, b', t') ∧
       b'.position_entry_prices =
         ([] : List Lot).filter (fun l => !(trigLot (0.5 : ℚ) (0.3 : ℚ) 102 l))) := by
  constructor
  · exact risk_selection_iff_thresholds.2.1
      ⟨2, [⟨1, 100⟩, ⟨1, 0⟩], 1, 15, 15, 0.5, 0.5, 0.3⟩ ⟨0, 10, [], []⟩ 102
      (by norm_num) (by simp) (by decide) (by norm_num [sumAmounts])
  · exact risk_selection_iff_thresholds.2.2
      ⟨1, [⟨1, 0⟩], 1, 15, 15, 0.5, 0.5, 0.3⟩ ⟨0, 10, [], []⟩ 102 [3, 2, 1]
      ⟨1, 0⟩ [] rfl (by norm_num) (by decide) (by norm_num) (by decide)
      (by norm_num [sumAmounts])

/-- C9 counterexample: with one open lot that also meets the tighter
take-profit threshold (bought at 100, current price 102) and strictly
decreasing last three closes, index 0 is queued twice; the close loop pops the
only lot and then indexes the empty list, so the pass aborts with an
IndexError (`none`) instead of closing exactly the single oldest lot. -/
theorem hf_micro_trend_double_close_raises :
    lastThreeStrictlyDecreasing [3, 2, 1] = true ∧
    ((0 : ℚ) < 1) ∧ (([⟨1, 100⟩] : List Lot) ≠ []) ∧
    handle_high_frequency_risk_management
        ⟨1, [⟨1, 100⟩], 1, 15, 15, 0.5, 0.5, 0.3⟩ ⟨0, 10, [], []⟩ 102 [3, 2, 1]
      = none := by
  have hmicro : lastThreeStrictlyDecreasing [3, 2, 1] = true := by decide
  refine ⟨hmicro, by decide, by simp, ?_⟩
  have htrig : trigLot (0.5 : ℚ) (0.3 : ℚ) 102 ⟨1, 100⟩ = true := by
    norm_num [trigLot]
  have htrig' : trigLot (1 / 2 : ℚ) (3 / 10 : ℚ) 102 ⟨1, 100⟩ = true := by
    norm_num [trigLot]
  have hsb : ("sell" : String) ≠ "buy" := by decide
  norm_num [handle_high_frequency_risk_management, hmicro, trigIdxFrom, htrig,
    htrig', sortDesc, insertDesc, closeLoop, execute_trade, recordTrade,
    pyLower_sell, hsb, List.eraseIdx]

/-- C9 amended: when the last three observed closes are strictly decreasing,
at least one lot is open and the oldest lot does not itself meet the tighter
take-profit/stop-loss thresholds, the micro-trend-reversal trigger closes
exactly one lot — the single oldest — regardless of its profit or loss inside
the exempt band and of an unknown entry price, in addition to any newer lots
closed by take-profit/stop-loss on the same tick. -/
theorem hf_micro_closes_single_oldest (b : CryptoTradingBot) (t : SimTracker)
    (price : ℚ) (closes : List ℚ) (l0 : Lot) (rest : List Lot)
    (hlots : b.position_entry_prices = l0 :: rest)
    (hdown : lastThreeStrictlyDecreasing closes = true)
    (hhead : trigLot (0.5 : ℚ) (0.3 : ℚ) price l0 = false)
    (hpos : 0 < b.current_position_size)
    (hnn : ∀ l ∈ b.position_entry_prices, 0 ≤ l.amount)
    (hbal : sumAmounts b.position_entry_prices ≤ t.base_balance) :
    ∃ b' t',
      handle_high_frequency_risk_management b t price closes = some (true, b', t') ∧
      b'.position_entry_prices =
        rest.filter (fun l => !(trigLot (0.5 : ℚ) (0.3 : ℚ) price l)) ∧
      b'.current_position_size = b.current_position_size - l0.amount -
        sumAmounts (rest.filter (fun l => trigLot (0.5 : ℚ) (0.3 : ℚ) price l)) :=
  hf_risk_head_exempt b t price closes l0 rest hlots hdown hhead hpos hnn hbal

/-- Witness for the amended C9: one open lot at its entry price, a strictly
decreasing close history; the micro-trend trigger closes exactly that lot. -/
theorem hf_micro_closes_single_oldest_witness :
    ∃ b' t',
      handle_high_frequency_risk_management
          ⟨1, [⟨1, 100⟩], 1, 15, 15, 0.5, 0.5, 0.3⟩ ⟨0, 10, [], []⟩ 100 [3, 2, 1]
        = some (true, b', t') ∧
      b'.position_entry_prices =
        ([] : List Lot).filter (fun l => !(trigLot (0.5 : ℚ) (0.3 : ℚ) 100 l)) ∧
      b'.current_position_size = 1 - (1 : ℚ) -
        sumAmounts (([] : List Lot).filter
          (fun l => trigLot (0.5 : ℚ) (0.3 : ℚ) 100 l)) := by
  have h := hf_micro_closes_single_oldest
    ⟨1, [⟨1, 100⟩], 1, 15, 15, 0.5, 0.5, 0.3⟩ ⟨0, 10, [], []⟩ 100 [3, 2, 1]
    ⟨1, 100⟩ [] rfl (by decide) (by norm_num [trigLot]) (by norm_num)
    (by decide) (by norm_num [sumAmounts])
  exact h

/-! ### Preservation of the ledger invariants by every operation -/

theorem StepOk_of_eq_bot (s s' : CryptoTradingBot × SimTracker) (h : s'.1 = s.1) :
    StepOk s s' := by
  rw [StepOk, h]
  exact ⟨rfl, rfl, fun _ => ⟨id, fun hn => ⟨hn, id⟩⟩⟩

theorem StepOk_trans {s s' s'' : CryptoTradingBot × SimTracker}
    (h1 : StepOk s s') (h2 : StepOk s' s'') : StepOk s s'' := by
  obtain ⟨hb1, hm1, hr1⟩ := h1
  obtain ⟨hb2, hm2, hr2⟩ := h2
  refine ⟨hb2.trans hb1, hm2.trans hm1, ?_⟩
  intro hbase
  have hbase' : 0 < s'.1.base_position_size := by rw [hb1]; exact hbase
  obtain ⟨hinv1, hrest1⟩ := hr1 hbase
  obtain ⟨hinv2, hrest2⟩ := hr2 hbase'
  refine ⟨fun hi => hinv2 (hinv1 hi), ?_⟩
  intro hnn
  obtain ⟨hnn1, hcap1⟩ := hrest1 hnn
  obtain ⟨hnn2, hcap2⟩ := hrest2 hnn1
  refine ⟨hnn2, fun hcap => ?_⟩
  have hc := hcap2 (by rw [hm1, hb1]; exact hcap1 hcap)
  rwa [hm1, hb1] at hc

theorem closeLoop_StepOk (price : ℚ) :
    ∀ (idxs : List ℕ) (b : CryptoTradingBot) (t : SimTracker)
      (r : CryptoTradingBot × SimTracker),
      closeLoop idxs price b t = some r → StepOk (b, t) r := by
  intro idxs
  induction idxs with
  | nil =>
    intro b t r h
    simp only [closeLoop, Option.some_inj] at h
    exact StepOk_of_eq_bot _ _ (by rw [← h])
  | cons i rest ih =>
    intro b t r h
    simp only [closeLoop] at h
    cases hval : b.position_entry_prices.get? i with
    | none => rw [hval] at h; simp at h
    | some lot =>
      rw [hval] at h
      simp only at h
      by_cases hok : (execute_trade t "sell" lot.amount price).1
      · rw [if_pos hok] at h
        refine StepOk_trans ?_ (ih _ _ _ h)
        refine ⟨rfl, rfl, fun hbase => ⟨?_, ?_⟩⟩
        · intro hinv
          show sumAmounts (b.position_entry_prices.eraseIdx i) = _
          rw [sum_eraseIdx _ i lot hval, hinv]
        · intro hnn
          have hmem : lot ∈ b.position_entry_prices := List.get?_mem hval
          have hla := hnn lot hmem
          constructor
          · intro l hl
            exact hnn l ((List.eraseIdx_sublist b.position_entry_prices i).subset hl)
          · intro hcap
            show b.current_position_size - lot.amount ≤ _
            linarith
      · rw [if_neg hok] at h
        exact StepOk_trans
          (StepOk_of_eq_bot (b, t) (b, (execute_trade t "sell" lot.amount price).2) rfl)
          (ih b ((execute_trade t "sell" lot.amount price).2) r h)

theorem handle_risk_management_StepOk (b : CryptoTradingBot) (t : SimTracker)
    (price : ℚ) (r : Bool × CryptoTradingBot × SimTracker)
    (h : handle_risk_management b t price = some r) :
    StepOk (b, t) (r.2.1, r.2.2) := by
  simp only [handle_risk_management] at h
  by_cases hg : b.current_position_size ≤ 0 ∨ b.position_entry_prices = []
  · rw [if_pos hg] at h
    simp only [Option.some_inj] at h
    exact StepOk_of_eq_bot _ _ (by rw [← h])
  · rw [if_neg hg] at h
    cases hcl : closeLoop (sortDesc (trigIdxFrom b.take_profit_percentage
        b.stop_loss_percentage price 0 b.position_entry_prices)) price b t with
    | none => rw [hcl] at h; simp at h
    | some rr =>
      rw [hcl] at h
      simp only [Option.map_some', Option.some_inj] at h
      have hs := closeLoop_StepOk price _ b t rr hcl
      rw [← h]
      exact hs

theorem handle_high_frequency_risk_management_StepOk (b : CryptoTradingBot)
    (t : SimTracker) (price : ℚ) (closes : List ℚ)
    (r : Bool × CryptoTradingBot × SimTracker)
    (h : handle_high_frequency_risk_management b t price closes = some r) :
    StepOk (b, t) (r.2.1, r.2.2) := by
  simp only [handle_high_frequency_risk_management] at h
  by_cases hg : b.current_position_size ≤ 0 ∨ b.position_entry_prices = []
  · rw [if_pos hg] at h
    simp only [Option.some_inj] at h
    exact StepOk_of_eq_bot _ _ (by rw [← h])
  · rw [if_neg hg] at h
    cases hcl : closeLoop (sortDesc
        ((if lastThreeStrictlyDecreasing closes = true ∧
            b.position_entry_prices ≠ [] then [0] else []) ++
          trigIdxFrom (0.5 : ℚ) (0.3 : ℚ) price 0 b.position_entry_prices))
        price b t with
    | none => rw [hcl] at h; simp at h
    | some rr =>
      rw [hcl] at h
      simp only [Option.map_some', Option.some_inj] at h
      have hs := closeLoop_StepOk price _ b t rr hcl
      rw [← h]
      exact hs

theorem buy_branch_StepOk (b : CryptoTradingBot) (t : SimTracker) (price : ℚ) :
    StepOk (b, t) ((buy_branch b t price).2.1, (buy_branch b t price).2.2) := by
  simp only [buy_branch]
  split_ifs with h1 h2 h3
  · refine ⟨rfl, rfl, fun hbase => ⟨?_, ?_⟩⟩
    · intro hinv
      show sumAmounts (b.position_entry_prices ++ [⟨_, price⟩]) = _
      rw [sumAmounts_append, hinv]
      simp [sumAmounts]
    · intro hnn
      have hq : (0 : ℚ) < b.base_position_size * (0.1 : ℚ) := by
        have : (0 : ℚ) < (0.1 : ℚ) := by norm_num
        positivity
      have hamt : 0 ≤ min (b.base_position_size * calculate_position_increment b 0.8)
          (b.max_position_size * b.base_position_size - b.current_position_size) := by
        linarith [h2]
      constructor
      · intro l hl
        rcases List.mem_append.mp hl with hl | hl
        · exact hnn l hl
        · simp only [List.mem_singleton] at hl
          rw [hl]
          exact hamt
      · intro _
        have hle := min_le_right
          (b.base_position_size * calculate_position_increment b 0.8)
          (b.max_position_size * b.base_position_size - b.current_position_size)
        show b.current_position_size + _ ≤ _
        linarith
  · exact StepOk_of_eq_bot _ _ rfl
  · exact StepOk_of_eq_bot _ _ rfl
  · exact StepOk_of_eq_bot _ _ rfl

theorem sell_branch_StepOk (b : CryptoTradingBot) (t : SimTracker) (price : ℚ) :
    StepOk (b, t) ((sell_branch b t price).2.1, (sell_branch b t price).2.2) := by
  simp only [sell_branch]
  split_ifs with h1 h2
  · refine ⟨rfl, rfl, fun hbase => ⟨?_, ?_⟩⟩
    · intro hinv
      have hsa0 : 0 ≤ min b.current_position_size b.base_position_size :=
        le_min (le_of_lt h1) (le_of_lt hbase)
      have hsale : min b.current_position_size b.base_position_size ≤
          sumAmounts b.position_entry_prices := by
        rw [hinv]; exact min_le_left _ _
      show sumAmounts (update_go _ b.position_entry_prices) = _
      rw [sum_update_go _ _ hsa0 hsale, hinv]
    · intro hnn
      have hsa0 : 0 ≤ min b.current_position_size b.base_position_size :=
        le_min (le_of_lt h1) (le_of_lt hbase)
      refine ⟨fun l hl => nonneg_update_go _ _ hnn l hl, fun hcap => ?_⟩
      show b.current_position_size - _ ≤ _
      linarith
  · exact StepOk_of_eq_bot _ _ rfl
  · exact StepOk_of_eq_bot _ _ rfl

theorem process_signals_StepOk (b : CryptoTradingBot) (t : SimTracker)
    (pc : ℤ) (price : ℚ) (closes : List ℚ)
    (r : Bool × CryptoTradingBot × SimTracker)
    (h : process_signals b t pc price closes = some r) :
    StepOk (b, t) (r.2.1, r.2.2) := by
  simp only [process_signals] at h
  by_cases hsz : b.current_position_size > 0
  · rw [if_pos hsz] at h
    cases hrp : handle_high_frequency_risk_management b t price closes with
    | none => rw [hrp] at h; simp at h
    | some rp =>
      obtain ⟨taken, b1, t1⟩ := rp
      rw [hrp] at h
      simp only at h
      have hrisk : StepOk (b, t) (b1, t1) :=
        handle_high_frequency_risk_management_StepOk b t price closes
          (taken, b1, t1) hrp
      by_cases ht : taken = true
      · rw [if_pos ht] at h
        simp only [Option.some_inj] at h
        rw [← h]
        exact hrisk
      · rw [if_neg ht] at h
        by_cases hpc1 : pc = 1
        · rw [if_pos hpc1] at h
          simp only [Option.some_inj] at h
          rw [← h]
          exact StepOk_trans hrisk (buy_branch_StepOk b1 t1 price)
        · rw [if_neg hpc1] at h
          by_cases hpc2 : pc = -1
          · rw [if_pos hpc2] at h
            simp only [Option.some_inj] at h
            rw [← h]
            exact StepOk_trans hrisk (sell_branch_StepOk b1 t1 price)
          · rw [if_neg hpc2] at h
            simp only [Option.some_inj] at h
            rw [← h]
            exact hrisk
  · rw [if_neg hsz] at h
    simp only at h
    rw [if_neg Bool.false_ne_true] at h
    by_cases hpc1 : pc = 1
    · rw [if_pos hpc1] at h
      simp only [Option.some_inj] at h
      rw [← h]
      exact buy_branch_StepOk b t price
    · rw [if_neg hpc1] at h
      by_cases hpc2 : pc = -1
      · rw [if_pos hpc2] at h
        simp only [Option.some_inj] at h
        rw [← h]
        exact sell_branch_StepOk b t price
      · rw [if_neg hpc2] at h
        simp only [Option.some_inj] at h
        rw [← h]
        exact StepOk_of_eq_bot _ _ rfl

theorem applyOp_StepOk (op : TradeOp) (s s' : CryptoTradingBot × SimTracker)
    (h : applyOp op s = some s') : StepOk s s' := by
  cases op with
  | signal pc price closes =>
    simp only [applyOp] at h
    cases hps : process_signals s.1 s.2 pc price closes with
    | none => rw [hps] at h; simp at h
    | some r =>
      rw [hps] at h
      simp only [Option.map_some', Option.some_inj] at h
      rw [← h]
      exact process_signals_StepOk s.1 s.2 pc price closes r hps
  | riskTick price =>
    simp only [applyOp] at h
    cases hps : handle_risk_management s.1 s.2 price with
    | none => rw [hps] at h; simp at h
    | some r =>
      rw [hps] at h
      simp only [Option.map_some', Option.some_inj] at h
      rw [← h]
      exact handle_risk_management_StepOk s.1 s.2 price r hps

theorem runOps_StepOk (ops : List TradeOp) :
    ∀ (s s' : CryptoTradingBot × SimTracker), runOps ops s = some s' → StepOk s s' := by
  induction ops with
  | nil =>
    intro s s' h
    simp only [runOps, Option.some_inj] at h
    exact StepOk_of_eq_bot _ _ (by rw [← h])
  | cons op ops ih =>
    intro s s' h
    simp only [runOps] at h
    cases hap : applyOp op s with
    | none => rw [hap] at h; simp at h
    | some s1 =>
      rw [hap] at h
      simp only at h
      exact StepOk_trans (applyOp_StepOk op s s1 hap) (ih s1 s' h)

/-! ### C1 and C2 -/

/-- C1: for every sequence of buy/sell signal-processing ticks and
risk-management ticks run from a state satisfying the ledger invariant (with a
positive `base_position_size`), the sum of the amounts of the open lots in
`position_entry_prices` equals `current_position_size` in the reached state;
applied to every prefix of a sequence this gives the invariant at every
observation point between operations. -/
theorem lot_sum_equals_position_size (ops : List TradeOp)
    (s s' : CryptoTradingBot × SimTracker)
    (hbase : 0 < s.1.base_position_size)
    (hinv : sumAmounts s.1.position_entry_prices = s.1.current_position_size)
    (hrun : runOps ops s = some s') :
    sumAmounts s'.1.position_entry_prices = s'.1.current_position_size :=
  ((runOps_StepOk ops s s' hrun).2.2 hbase).1 hinv

/-- Witness for C1: one concrete accepted buy tick. -/
theorem lot_sum_equals_position_size_witness :
    (0 : ℚ) < 1 ∧
    sumAmounts [] = (0 : ℚ) ∧
    runOps [TradeOp.signal 1 10 []]
        (⟨0, [], 1, 15, 15, 0.5, 0.5, 0.3⟩, ⟨100, 0, [], []⟩) =
      some (⟨9/5, [⟨9/5, 10⟩], 1, 15, 15, 0.5, 0.5, 0.3⟩,
            ⟨40991/500, 9/5, [⟨"buy", 9/5, 10, 18, 40991/500, 9/5⟩],
             [⟨40991/500, 9/5, 10, 49991/500⟩]⟩) ∧
    sumAmounts [⟨9/5, 10⟩] = (9/5 : ℚ) := by
  have hrun : runOps [TradeOp.signal 1 10 []]
      (⟨0, [], 1, 15, 15, 0.5, 0.5, 0.3⟩, ⟨100, 0, [], []⟩) =
      some (⟨9/5, [⟨9/5, 10⟩], 1, 15, 15, 0.5, 0.5, 0.3⟩,
            ⟨40991/500, 9/5, [⟨"buy", 9/5, 10, 18, 40991/500, 9/5⟩],
             [⟨40991/500, 9/5, 10, 49991/500⟩]⟩) := by
    norm_num [runOps, applyOp, process_signals, buy_branch,
      calculate_position_increment, execute_trade, recordTrade, pyLower_buy,
      min_def, sumAmounts]
  refine ⟨by norm_num, by norm_num [sumAmounts], hrun, ?_⟩
  exact lot_sum_equals_position_size [TradeOp.signal 1 10 []] _ _ (by norm_num)
    (by norm_num [sumAmounts]) hrun

/-- C2: over any sequence of buy-signal ticks the position size never exceeds
`max_position_size * base_position_size`; below the cap the bought amount is
the minimum of the computed increment amount and the remaining headroom; at or
above the cap the buy branch is a no-op. -/
theorem position_cap_invariant :
    (∀ (ops : List TradeOp) (s s' : CryptoTradingBot × SimTracker),
       (∀ op ∈ ops, ∃ price closes, op = TradeOp.signal 1 price closes) →
       0 < s.1.base_position_size →
       (∀ l ∈ s.1.position_entry_prices, 0 ≤ l.amount) →
       s.1.current_position_size ≤
         s.1.max_position_size * s.1.base_position_size →
       runOps ops s = some s' →
       s'.1.current_position_size ≤
         s'.1.max_position_size * s'.1.base_position_size) ∧
    (∀ (b : CryptoTradingBot) (t : SimTracker) (price : ℚ),
       b.max_position_size * b.base_position_size ≤ b.current_position_size →
       buy_branch b t price = (true, b, t)) ∧
    (∀ (b : CryptoTradingBot) (t : SimTracker) (price : ℚ),
       b.current_position_size < b.max_position_size * b.base_position_size →
       ((buy_branch b t price).2.1.current_position_size =
          b.current_position_size ∨
        (buy_branch b t price).2.1.current_position_size =
          b.current_position_size +
            min (b.base_position_size * calculate_position_increment b 0.8)
              (b.max_position_size * b.base_position_size -
                b.current_position_size)) ∧
       (buy_branch b t price).2.1.current_position_size ≤
         b.max_position_size * b.base_position_size) := by
  refine ⟨?_, ?_, ?_⟩
  · intro ops s s' _hbuy hbase hnn hcap hrun
    obtain ⟨hb, hm, hr⟩ := runOps_StepOk ops s s' hrun
    have hfin := ((hr hbase).2 hnn).2 hcap
    rw [hm, hb]
    exact hfin
  · intro b t price hcap
    simp only [buy_branch]
    rw [if_neg (not_lt.mpr hcap)]
  · intro b t price hlt
    simp only [buy_branch]
    rw [if_pos hlt]
    split_ifs with h2 h3
    · constructor
      · exact Or.inr rfl
      · have hle := min_le_right
          (b.base_position_size * calculate_position_increment b 0.8)
          (b.max_position_size * b.base_position_size - b.current_position_size)
        show b.current_position_size + _ ≤ _
        linarith
    · exact ⟨Or.inl rfl, le_of_lt hlt⟩
    · exact ⟨Or.inl rfl, le_of_lt hlt⟩

/-- Witness for C2: the concrete accepted buy stays under the cap, a bot at
the cap is refused, and below the cap the buy amount is the capped minimum. -/
theorem position_cap_invariant_witness :
    ((9/5 : ℚ) ≤ 15 * 1) ∧
    buy_branch ⟨15, [], 1, 15, 15, 0.5, 0.5, 0.3⟩ ⟨100, 0, [], []⟩ 10 =
      (true, ⟨15, [], 1, 15, 15, 0.5, 0.5, 0.3⟩, ⟨100, 0, [], []⟩) ∧
    ((buy_branch ⟨0, [], 1, 15, 15, 0.5, 0.5, 0.3⟩ ⟨100, 0, [], []⟩
        10).2.1.current_position_size = (0 : ℚ) ∨
     (buy_branch ⟨0, [], 1, 15, 15, 0.5, 0.5, 0.3⟩ ⟨100, 0, [], []⟩
        10).2.1.current_position_size =
       0 + min (1 * calculate_position_increment
           ⟨0, [], 1, 15, 15, 0.5, 0.5, 0.3⟩ 0.8) (15 * 1 - 0)) ∧
    (buy_branch ⟨0, [], 1, 15, 15, 0.5, 0.5, 0.3⟩ ⟨100, 0, [], []⟩
        10).2.1.current_position_size ≤ 15 * 1 := by
  have hrun : runOps [TradeOp.signal 1 10 []]
      (⟨0, [], 1, 15, 15, 0.5, 0.5, 0.3⟩, ⟨100, 0, [], []⟩) =
      some (⟨9/5, [⟨9/5, 10⟩], 1, 15, 15, 0.5, 0.5, 0.3⟩,
            ⟨40991/500, 9/5, [⟨"buy", 9/5, 10, 18, 40991/500, 9/5⟩],
             [⟨40991/500, 9/5, 10, 49991/500⟩]⟩) := by
    norm_num [runOps, applyOp, process_signals, buy_branch,
      calculate_position_increment, execute_trade, recordTrade, pyLower_buy,
      min_def, sumAmounts]
  have h1 := position_cap_invariant.1 [TradeOp.signal 1 10 []]
    (⟨0, [], 1, 15, 15, 0.5, 0.5, 0.3⟩, ⟨100, 0, [], []⟩)
    (⟨9/5, [⟨9/5, 10⟩], 1, 15, 15, 0.5, 0.5, 0.3⟩,
     ⟨40991/500, 9/5, [⟨"buy", 9/5, 10, 18, 40991/500, 9/5⟩],
      [⟨40991/500, 9/5, 10, 49991/500⟩]⟩)
    (by intro op hop; simp at hop; exact ⟨10, [], hop⟩)
    (by norm_num) (by simp) (by norm_num) hrun
  have h2 := position_cap_invariant.2.1 ⟨15, [], 1, 15, 15, 0.5, 0.5, 0.3⟩
    ⟨100, 0, [], []⟩ 10 (by norm_num)
  have h3 := position_cap_invariant.2.2 ⟨0, [], 1, 15, 15, 0.5, 0.5, 0.3⟩
    ⟨100, 0, [], []⟩ 10 (by norm_num)
  exact ⟨h1, h2, h3.1, h3.2⟩

/-! ### C3: the Trade Governor -/

theorem getLastD_mem_cons {α : Type} :
    ∀ (l : List α) (a : α), l.getLastD a ∈ a :: l
  | [], a => by simp
  | x :: xs, a => by
    rw [List.getLastD_cons]
    exact List.mem_cons_of_mem a (getLastD_mem_cons xs x)

theorem runGov_append (limit : ℕ) :
    ∀ (l1 l2 : List ℚ) (g : TradeGovernor),
      runGov limit g (l1 ++ l2) =
        ((runGov limit g l1).1 + (runGov limit (runGov limit g l1).2 l2).1,
         (runGov limit (runGov limit g l1).2 l2).2) := by
  intro l1
  induction l1 with
  | nil => intro l2 g; simp [runGov]
  | cons x xs ih =>
    intro l2 g
    simp only [List.cons_append, List.append_eq, runGov, ih]
    exact Prod.ext (by omega) rfl

theorem runGov_accept_all (limit : ℕ) :
    ∀ (ts : List ℚ) (tl : ℚ) (k : ℕ),
      k + ts.length ≤ limit →
      (∀ x ∈ ts, tl ≤ x) →
      List.Pairwise (· ≤ ·) ts →
      (∀ x ∈ ts, x ≤ tl + 60) →
      runGov limit ⟨some tl, k⟩ ts =
        (ts.length, ⟨some (ts.getLastD tl), k + ts.length⟩) := by
  intro ts
  induction ts with
  | nil => intro tl k _ _ _ _; simp [runGov]
  | cons x xs ih =>
    intro tl k hk hge hpw hle
    have hxtl : tl ≤ x := hge x (List.mem_cons_self x xs)
    have hx60 : x ≤ tl + 60 := hle x (List.mem_cons_self x xs)
    have hnores : ¬ (x - tl > 60) := by linarith
    have hlen' : (x :: xs).length = xs.length + 1 := by simp
    have hklt : k < limit := by omega
    have hpc := List.pairwise_cons.mp hpw
    simp only [runGov, can_trade, if_neg hnores, if_pos hklt]
    rw [ih x (k + 1)
      (by omega)
      (fun y hy => hpc.1 y hy)
      hpc.2
      (fun y hy => by
        have h1 := hle y (List.mem_cons_of_mem x hy)
        linarith)]
    simp only [List.length_cons, List.getLastD_cons]
    exact Prod.ext (by simp) (by simp; omega)

/-- C3 (modelled from the spec): with a per-minute limit of 20, a run of 21
nondecreasing entry-signal times inside one 60-second window accepts the
first 20 and exactly 20 overall — so the 21st is denied — and once more than
60 seconds have passed since every signal in the window, the next entry is
accepted again. -/
theorem trade_governor_rate_limit (t0 : ℚ) (rest : List ℚ) (tNext : ℚ)
    (hlen : rest.length = 20)
    (hpw : List.Pairwise (· ≤ ·) (t0 :: rest))
    (hspan : ∀ x ∈ rest, x ≤ t0 + 60)
    (hnext : ∀ x ∈ t0 :: rest, x + 60 < tNext) :
    (runGov 20 ⟨none, 0⟩ ((t0 :: rest).take 20)).1 = 20 ∧
    (runGov 20 ⟨none, 0⟩ (t0 :: rest)).1 = 20 ∧
    (can_trade 20 (runGov 20 ⟨none, 0⟩ (t0 :: rest)).2 tNext).1 = true := by
  have hpc := List.pairwise_cons.mp hpw
  have hpw1 : ∀ x ∈ rest, t0 ≤ x := hpc.1
  have hpwrest : List.Pairwise (· ≤ ·) rest := hpc.2
  obtain ⟨e, he⟩ : ∃ e, rest.drop 19 = [e] := by
    apply List.length_eq_one.mp
    rw [List.length_drop, hlen]
  have hsplit : rest.take 19 ++ [e] = rest := by
    rw [← he]; exact List.take_append_drop 19 rest
  have htakelen : (rest.take 19).length = 19 := by
    rw [List.length_take, hlen]
    omega
  have haccept := runGov_accept_all 20 (rest.take 19) t0 1
    (by rw [htakelen])
    (fun y hy => hpw1 y (List.take_subset 19 rest hy))
    (List.Pairwise.sublist (List.take_sublist 19 rest) hpwrest)
    (fun y hy => hspan y (List.take_subset 19 rest hy))
  rw [htakelen] at haccept
  rw [show (1 : ℕ) + 19 = 20 from rfl] at haccept
  have hmemlast := getLastD_mem_cons (rest.take 19) t0
  have htl19mem : (rest.take 19).getLastD t0 ∈ t0 :: rest := by
    rcases List.mem_cons.mp hmemlast with h | h
    · rw [h]; exact List.mem_cons_self t0 rest
    · exact List.mem_cons_of_mem t0 (List.take_subset 19 rest h)
  have htl19ge : t0 ≤ (rest.take 19).getLastD t0 := by
    rcases List.mem_cons.mp hmemlast with h | h
    · rw [h]
    · exact hpw1 _ (List.take_subset 19 rest h)
  have hemem : e ∈ rest := by
    have h : e ∈ rest.drop 19 := by rw [he]; exact List.mem_singleton.mpr rfl
    exact List.drop_subset 19 rest h
  have he60 : e ≤ t0 + 60 := hspan e hemem
  have hdeny : can_trade 20 ⟨some ((rest.take 19).getLastD t0), 20⟩ e =
      (false, ⟨some ((rest.take 19).getLastD t0), 20⟩) := by
    simp only [can_trade]
    rw [if_neg (by linarith : ¬ (e - (rest.take 19).getLastD t0 > 60))]
    rw [if_neg (by omega : ¬ (20 < 20))]
  have hrest : runGov 20 ⟨some t0, 1⟩ rest =
      (19, ⟨some ((rest.take 19).getLastD t0), 20⟩) := by
    have hone : runGov 20 ⟨some ((rest.take 19).getLastD t0), 20⟩ [e] =
        (0, ⟨some ((rest.take 19).getLastD t0), 20⟩) := by
      simp only [runGov, hdeny]
      simp
    have h1 : runGov 20 ⟨some t0, 1⟩ (rest.take 19 ++ [e]) =
        (19, ⟨some ((rest.take 19).getLastD t0), 20⟩) := by
      rw [runGov_append, haccept]
      simp only
      rw [hone]
      norm_num
    rw [hsplit] at h1
    exact h1
  have hfull : runGov 20 ⟨none, 0⟩ (t0 :: rest) =
      (20, ⟨some ((rest.take 19).getLastD t0), 20⟩) := by
    simp only [runGov, can_trade, hrest]
    norm_num
  have htake : (t0 :: rest).take 20 = t0 :: rest.take 19 := by
    rw [show (20 : ℕ) = 19 + 1 from rfl]
    rfl
  refine ⟨?_, ?_, ?_⟩
  · rw [htake]
    simp only [runGov, can_trade, haccept]
    norm_num
  · rw [hfull]
  · rw [hfull]
    have hgt : tNext - (rest.take 19).getLastD t0 > 60 := by
      have h := hnext _ htl19mem
      linarith
    simp only [can_trade]
    rw [if_pos hgt, if_pos (by omega : (0 : ℕ) < 20)]

/-- Witness for C3: 21 signals at seconds 0..20 and a 22nd at second 100. -/
theorem trade_governor_rate_limit_witness :
    (([1, 2, 3, 4, 5, 6, 7, 8, 9, 10, 11, 12, 13, 14, 15, 16, 17, 18, 19,
        20] : List ℚ).length = 20) ∧
    (runGov 20 ⟨none, 0⟩ (((0 : ℚ) :: [1, 2, 3, 4, 5, 6, 7, 8, 9, 10, 11, 12,
        13, 14, 15, 16, 17, 18, 19, 20]).take 20)).1 = 20 ∧
    (runGov 20 ⟨none, 0⟩ ((0 : ℚ) :: [1, 2, 3, 4, 5, 6, 7, 8, 9, 10, 11, 12,
        13, 14, 15, 16, 17, 18, 19, 20])).1 = 20 ∧
    (can_trade 20 (runGov 20 ⟨none, 0⟩ ((0 : ℚ) :: [1, 2, 3, 4, 5, 6, 7, 8, 9,
        10, 11, 12, 13, 14, 15, 16, 17, 18, 19, 20])).2 100).1 = true := by
  have h := trade_governor_rate_limit 0
    [1, 2, 3, 4, 5, 6, 7, 8, 9, 10, 11, 12, 13, 14, 15, 16, 17, 18, 19, 20] 100
    (by decide)
    (by norm_num [List.pairwise_cons])
    (by intro x hx; fin_cases hx <;> norm_num)
    (by intro x hx; fin_cases hx <;> norm_num)
  exact ⟨by decide, h.1, h.2.1, h.2.2⟩
